import Mathlib

/-!
Shallow embedding of the arXiv-papers denormalization pipeline
(`problem2/load_data.py`, `problem2/query_papers.py`, `problem2/api_server.py`).

Strings are Lean `String`s; Python dicts with a fixed key vocabulary are
structures whose optional keys are `Option` fields (`none` = key absent);
fallible code returns `Except`; the DynamoDB table is a list of items, and a
partition query is a filter followed by a stable sort on the sort key
(DynamoDB keeps items of one partition in sort-key order; `ScanIndexForward
= False` reverses, `Limit` truncates after ordering).
-/

namespace ArxivPipeline

/-! ### Keyword extractor (load_data.py lines 94-109) -/

/-- Characters matching the leading class `[a-zA-Z]` of `TOKENIZER`. -/
def isTokenStart (c : Char) : Bool :=
  ('a' ≤ c && c ≤ 'z') || ('A' ≤ c && c ≤ 'Z')

/-- Characters matching the continuation class `[a-zA-Z0-9\-]` of `TOKENIZER`. -/
def isTokenChar (c : Char) : Bool :=
  isTokenStart c || ('0' ≤ c && c ≤ '9') || c = '-'

/-- One left-to-right pass producing the maximal non-overlapping matches of
`re.compile(r"[a-zA-Z][a-zA-Z0-9\-]*")`, i.e. `TOKENIZER.findall`.  The second
argument is the current partially-read token, reversed (`[]` = not inside a
token; a character that cannot extend the current token also cannot start a
new one, because every token-start character is a token character). -/
def tokenizeGo : List Char → List Char → List (List Char)
  | [], [] => []
  | [], acc => [acc.reverse]
  | c :: cs, [] => if isTokenStart c then tokenizeGo cs [c] else tokenizeGo cs []
  | c :: cs, acc =>
    if isTokenChar c then tokenizeGo cs (c :: acc)
    else acc.reverse :: tokenizeGo cs []

/-- `TOKENIZER.findall(text)`. -/
def findallTokens (text : String) : List (List Char) :=
  tokenizeGo text.data []

/-- `str.lower` restricted to ASCII, which is all `lower` does on the
characters a tokenizer match can contain. -/
def lowerStr (s : String) : String :=
  String.mk (s.data.map Char.toLower)

/-- The fixed stopword set `STOPWORDS` of load_data.py (a Python set; only
membership is ever used, so a list models it). -/
def STOPWORDS : List String :=
  ["the", "a", "an", "and", "or", "but", "in", "on", "at", "to", "for",
   "of", "with", "by", "from", "up", "about", "into", "through", "during",
   "is", "are", "was", "were", "be", "been", "being", "have", "has", "had",
   "do", "does", "did", "will", "would", "could", "should", "may", "might",
   "can", "this", "that", "these", "those", "we", "our", "use", "using",
   "based", "approach", "method", "paper", "propose", "proposed", "show"]

/-- `[t.lower() for t in TOKENIZER.findall(text)]`. -/
def lowerTokens (text : String) : List String :=
  (findallTokens text).map (fun cs => String.mk (cs.map Char.toLower))

/-- `[t for t in tokens if t not in STOPWORDS]`. -/
def filteredTokens (text : String) : List String :=
  (lowerTokens text).filter (fun t => !(STOPWORDS.contains t))

/-- One step of `collections.Counter` construction: increment the entry of
`t`, or append `(t, 1)` if `t` is a new key (Python dicts keep insertion
order, so a Counter lists its keys in order of first occurrence). -/
def bump : List (String × Nat) → String → List (String × Nat)
  | [], t => [(t, 1)]
  | (k, n) :: rest, t =>
    if k = t then (k, n + 1) :: rest else (k, n) :: bump rest t

/-- `Counter(tokens)` as an association list in key-insertion order. -/
def counterList (ts : List String) : List (String × Nat) :=
  ts.foldl bump []

/-- Stable insertion for a total preorder `le`: `a` goes after every element
`b` with `le b a`, so elements equivalent under `le` keep their arrival
order. -/
def insertStable (le : α → α → Bool) (a : α) : List α → List α
  | [] => [a]
  | b :: bs => if le b a then b :: insertStable le a bs else a :: b :: bs

/-- Stable sort by repeated `insertStable` (left fold, so earlier list
elements are inserted earlier and win ties). -/
def stableSort (le : α → α → Bool) (l : List α) : List α :=
  l.foldl (fun acc a => insertStable le a acc) []

/-- `Counter.most_common(k)`: the pairs sorted by count descending — with
equal counts ordered as first encountered, as the Python docs specify — then
truncated to `k` and stripped to their keys. -/
def mostCommon (l : List (String × Nat)) (k : Nat) : List String :=
  ((stableSort (fun a b => decide (b.2 ≤ a.2)) l).take k).map Prod.fst

/-- `extract_keywords(text, topk)` of load_data.py. -/
def extract_keywords (text : String) (topk : Nat) : List String :=
  mostCommon (counterList (filteredTokens text)) topk

/-! ### Paper transformation (load_data.py lines 113-207) -/

/-- An input paper dict; `none` models an absent key. -/
structure Paper where
  arxiv_id : Option String
  title : Option String
  authors : Option (List String)
  categories : Option (List String)
  abstract : Option String
  published : Option String
deriving DecidableEq, Repr

/-- A DynamoDB item as written by `transform_paper`.  The three item kinds
populate different dict keys, so keys present on only some kinds are
`Option` fields (`none` = attribute absent on that item). -/
structure Item where
  PK : String
  SK : String
  arxiv_id : String
  title : String
  authors : Option (List String)
  abstract : Option String
  categories : List String
  keywords : Option (List String)
  published : String
  type : Option String
  token : Option String
  GSI1PK : Option String
  GSI1SK : Option String
  GSI2PK : Option String
  GSI3PK : Option String
  GSI3SK : Option String
deriving DecidableEq, Repr

/-- `transform_paper(p)`.  `p["arxiv_id"]` (line 123) and `p["abstract"]`
(line 130) are direct subscripts that raise `KeyError` on an absent key, in
that evaluation order; every other field is read with `p.get(key, default)`.
Note line 127 binds `abstract = p.get("abstract", "")` but line 130
nevertheless re-reads `p["abstract"]` for keyword extraction. -/
def transform_paper (p : Paper) : Except String (List Item) :=
  match p.arxiv_id with
  | none => .error "KeyError: arxiv_id"
  | some arxiv_id =>
    let title := p.title.getD ""
    let authors := p.authors.getD []
    let cats := p.categories.getD []
    let abstract := p.abstract.getD ""
    let published := p.published.getD ""
    match p.abstract with
    | none => .error "KeyError: abstract"
    | some abstractSub =>
      let keywords := extract_keywords abstractSub 10
      .ok
        ((cats.map (fun cat =>
          { PK := "CATEGORY#" ++ cat
            SK := published ++ "#" ++ arxiv_id
            arxiv_id := arxiv_id
            title := title
            authors := some authors
            abstract := some abstract
            categories := cats
            keywords := some keywords
            published := published
            type := none
            token := none
            GSI1PK := none
            GSI1SK := none
            GSI2PK := some ("ARXIV_ID#" ++ arxiv_id)
            GSI3PK := none
            GSI3SK := none : Item }))
        ++ (authors.map (fun author =>
          { PK := "AUTHOR#" ++ author
            SK := published ++ "#" ++ arxiv_id
            arxiv_id := arxiv_id
            title := title
            authors := none
            abstract := none
            categories := cats
            keywords := none
            published := published
            type := some "AUTHOR"
            token := none
            GSI1PK := some ("AUTHOR#" ++ author)
            GSI1SK := some (published ++ "#" ++ arxiv_id)
            GSI2PK := none
            GSI3PK := none
            GSI3SK := none : Item }))
        ++ (keywords.map (fun kw =>
          { PK := "KEYWORD#" ++ kw
            SK := "KW#" ++ arxiv_id ++ "#" ++ kw
            arxiv_id := arxiv_id
            title := title
            authors := none
            abstract := none
            categories := cats
            keywords := none
            published := published
            type := some "KW"
            token := some kw
            GSI1PK := none
            GSI1SK := none
            GSI2PK := none
            GSI3PK := some ("KEYWORD#" ++ kw)
            GSI3SK := some (published ++ "#" ++ arxiv_id) : Item })))

/-! ### Store and query layer (query_papers.py, api_server.py) -/

/-- The DynamoDB table contents. -/
abbrev Store := List Item

/-- Lexicographic order on character sequences, as DynamoDB compares string
sort keys (byte order; on ASCII, character order). -/
def lexLe : List Char → List Char → Bool
  | [], _ => true
  | _ :: _, [] => false
  | a :: as, b :: bs => if a < b then true else if a = b then lexLe as bs else false

/-- Strict counterpart of `lexLe`. -/
def lexLt : List Char → List Char → Bool
  | [], [] => false
  | [], _ :: _ => true
  | _ :: _, [] => false
  | a :: as, b :: bs => if a < b then true else if a = b then lexLt as bs else false

/-- String comparison used by the store on sort keys. -/
def skLe (a b : String) : Bool := lexLe a.data b.data

/-- Items of one partition in ascending key order, as a DynamoDB query
returns them (`key` extracts the relevant range key). -/
def sortByKey (key : Item → String) (l : List Item) : List Item :=
  stableSort (fun a b => skLe (key a) (key b)) l

/-- `query_recent_in_category(table, category, limit)`: main-table partition
query, `ScanIndexForward=False`, `Limit=limit`. -/
def query_recent_in_category (store : Store) (category : String) (limit : Nat) :
    List Item :=
  ((sortByKey (fun it => it.SK)
      (store.filter (fun it => it.PK = "CATEGORY#" ++ category))).reverse).take limit

/-- `query_papers_by_author(table, author_name)`: AuthorIndex partition
query (sparse index: only items carrying `GSI1PK` appear). -/
def query_papers_by_author (store : Store) (author_name : String) : List Item :=
  sortByKey (fun it => it.GSI1SK.getD "")
    (store.filter (fun it => it.GSI1PK = some ("AUTHOR#" ++ author_name)))

/-- `get_paper_by_id(table, arxiv_id)`: PaperIdIndex partition query, then
`response['Items'][0] if response['Items'] else []`; the empty-list arm is
modelled as `none`. -/
def get_paper_by_id (store : Store) (arxiv_id : String) : Option Item :=
  (store.filter (fun it => it.GSI2PK = some ("ARXIV_ID#" ++ arxiv_id))).head?

/-- `query_papers_in_date_range(table, category, start_date, end_date)`:
main-table query with `Key('SK').between(f'{start_date}#', f'{end_date}#zzzzzzz')`. -/
def query_papers_in_date_range (store : Store) (category start_date end_date : String) :
    List Item :=
  sortByKey (fun it => it.SK)
    (store.filter (fun it =>
      it.PK = "CATEGORY#" ++ category
      && skLe (start_date ++ "#") it.SK
      && skLe it.SK (end_date ++ "#zzzzzzz")))

/-- `query_papers_by_keyword(table, keyword, limit)`: KeywordIndex partition
query on the lowercased keyword, descending, truncated. -/
def query_papers_by_keyword (store : Store) (keyword : String) (limit : Nat) :
    List Item :=
  ((sortByKey (fun it => it.GSI3SK.getD "")
      (store.filter (fun it =>
        it.GSI3PK = some ("KEYWORD#" ++ lowerStr keyword)))).reverse).take limit

/-- The display projection the CLI builds per result item
(`item.get(field)` for the five display fields). -/
structure DisplayRow where
  arxiv_id : String
  title : String
  authors : Option (List String)
  published : String
  categories : List String
deriving DecidableEq, Repr

/-- Projection of one item to its CLI display row. -/
def displayOf (it : Item) : DisplayRow :=
  { arxiv_id := it.arxiv_id
    title := it.title
    authors := it.authors
    published := it.published
    categories := it.categories }

/-- The JSON the CLI prints: the shaped results together with `count`. -/
structure CliOutput where
  results : List DisplayRow
  count : Nat
deriving DecidableEq, Repr

/-- The `recent` branch of query_papers.main (lines 121-138).  The parsed
`--limit` (default 10) is bound to `argLimit`, but line 128 calls
`query_recent_in_category(args.table, args.category, limit=10)` with the
constant 10, so `argLimit` never reaches the query. -/
def cli_recent (store : Store) (category : String) (argLimit : Nat) : CliOutput :=
  let items := query_recent_in_category store category 10
  { results := items.map displayOf, count := (items.map displayOf).length }

/-- The `author` branch of query_papers.main (lines 140-156). -/
def cli_author (store : Store) (author_name : String) : CliOutput :=
  let items := query_papers_by_author store author_name
  { results := items.map displayOf, count := (items.map displayOf).length }

/-- The `get` branch of query_papers.main (lines 158-175).  When
`get_paper_by_id` finds nothing it returns the empty list `[]`, and main's
`items.get("arxiv_id")` then raises `AttributeError` because a list has no
`get` method; a found item is shaped into one row with `count` 1. -/
def cli_get (store : Store) (arxiv_id : String) :
    Except String (DisplayRow × Nat) :=
  match get_paper_by_id store arxiv_id with
  | none => .error "AttributeError: list object has no attribute get"
  | some it => .ok (displayOf it, 1)

/-- The `daterange` branch of query_papers.main (lines 177-195). -/
def cli_daterange (store : Store) (category start_date end_date : String) : CliOutput :=
  let items := query_papers_in_date_range store category start_date end_date
  { results := items.map displayOf, count := (items.map displayOf).length }

/-- The `keyword` branch of query_papers.main (lines 197-214); like `recent`
it passes the constant `limit=10` (line 204) instead of `argLimit`. -/
def cli_keyword (store : Store) (keyword : String) (argLimit : Nat) : CliOutput :=
  let items := query_papers_by_keyword store keyword 10
  { results := items.map displayOf, count := (items.map displayOf).length }

/-- Body of api_server's `handle_get_by_id` (lines 150-174): a PaperIdIndex
query whose raw `Items` (no projection, internal key attributes included)
become the `papers` array, with `count` hard-coded to 1; an empty result is
turned into a 404 error response. -/
def handle_get_by_id (store : Store) (arxiv_id : String) :
    Except (Nat × String) (List Item × Nat) :=
  let papers := store.filter (fun it => it.GSI2PK = some ("ARXIV_ID#" ++ arxiv_id))
  if papers.isEmpty then .error (404, "Invalid arxiv_id")
  else .ok (papers, 1)

/-! ### Auxiliary notions used only to state and prove properties -/

/-- Position of the first occurrence of `u` in `l` (arbitrary when absent). -/
def firstIdx : List String → String → Nat
  | [], _ => 0
  | t :: ts, u => if t = u then 0 else firstIdx ts u + 1

/-- Value stored under key `u` in a counter association list (0 if absent). -/
def lookupC : List (String × Nat) → String → Nat
  | [], _ => 0
  | (k, n) :: rest, u => if k = u then n else lookupC rest u

/-- A character sequence shaped like a tokenizer match: a leading letter
followed by letters, digits or hyphens. -/
def goodTok : List Char → Prop
  | [] => False
  | c :: rest => isTokenStart c = true ∧ ∀ d ∈ rest, isTokenChar d = true

/-- A lowercase token matching `[a-zA-Z][a-zA-Z0-9-]*`, i.e. a string whose
head is a lowercase letter and whose remaining characters are lowercase
letters, digits or hyphens. -/
def isLowerToken (s : String) : Bool :=
  match s.data with
  | [] => false
  | c :: cs =>
    ('a' ≤ c && c ≤ 'z')
      && cs.all (fun d => ('a' ≤ d && d ≤ 'z') || ('0' ≤ d && d ≤ '9') || d = '-')

/-! ### Concrete fixtures -/

/-- A category view for category `cs.LG` as `transform_paper` emits it for a
paper with one author `"A"`, title `"t"` and an empty abstract. -/
def mkCategoryView (aid pub : String) : Item :=
  { PK := "CATEGORY#cs.LG", SK := pub ++ "#" ++ aid, arxiv_id := aid, title := "t",
    authors := some ["A"], abstract := some "", categories := ["cs.LG"],
    keywords := some [], published := pub, type := none, token := none,
    GSI1PK := none, GSI1SK := none, GSI2PK := some ("ARXIV_ID#" ++ aid),
    GSI3PK := none, GSI3SK := none }

/-- Fixture for the recency queries: three `cs.LG` papers loaded in the
order 2024-01-01, 2024-01-03, 2024-01-02. -/
def itemJan1 : Item := mkCategoryView "a1" "2024-01-01"

/-- Second recency fixture paper, dated 2024-01-03. -/
def itemJan3 : Item := mkCategoryView "a2" "2024-01-03"

/-- Third recency fixture paper, dated 2024-01-02. -/
def itemJan2 : Item := mkCategoryView "a3" "2024-01-02"

/-- The recency fixture store. -/
def recentStore : Store := [itemJan1, itemJan3, itemJan2]

/-- A paper whose two categories make two category views share the
`ARXIV_ID#0001` secondary key. -/
def paperTwoCats : Paper :=
  { arxiv_id := some "0001", title := some "T", authors := some ["A"],
    categories := some ["cs.LG", "cs.AI"], abstract := some "",
    published := some "2024-01-01" }

/-- First category view of `paperTwoCats`. -/
def catViewLG : Item :=
  { PK := "CATEGORY#cs.LG", SK := "2024-01-01#0001", arxiv_id := "0001",
    title := "T", authors := some ["A"], abstract := some "",
    categories := ["cs.LG", "cs.AI"], keywords := some [],
    published := "2024-01-01", type := none, token := none,
    GSI1PK := none, GSI1SK := none, GSI2PK := some "ARXIV_ID#0001",
    GSI3PK := none, GSI3SK := none }

/-- Second category view of `paperTwoCats`. -/
def catViewAI : Item :=
  { PK := "CATEGORY#cs.AI", SK := "2024-01-01#0001", arxiv_id := "0001",
    title := "T", authors := some ["A"], abstract := some "",
    categories := ["cs.LG", "cs.AI"], keywords := some [],
    published := "2024-01-01", type := none, token := none,
    GSI1PK := none, GSI1SK := none, GSI2PK := some "ARXIV_ID#0001",
    GSI3PK := none, GSI3SK := none }

/-- Author view of `paperTwoCats`. -/
def authorViewA : Item :=
  { PK := "AUTHOR#A", SK := "2024-01-01#0001", arxiv_id := "0001",
    title := "T", authors := none, abstract := none,
    categories := ["cs.LG", "cs.AI"], keywords := none,
    published := "2024-01-01", type := some "AUTHOR", token := none,
    GSI1PK := some "AUTHOR#A", GSI1SK := some "2024-01-01#0001",
    GSI2PK := none, GSI3PK := none, GSI3SK := none }

/-- The store after loading `paperTwoCats`. -/
def storeTwoCats : Store := [catViewLG, catViewAI, authorViewA]

end ArxivPipeline

namespace ArxivPipeline

/-! ## Shared lemmas -/

/-- Membership through `insertStable`. -/
theorem mem_insertStable (le : α → α → Bool) (a x : α) (l : List α) :
    x ∈ insertStable le a l ↔ x = a ∨ x ∈ l := by
  induction l with
  | nil => simp [insertStable]
  | cons b bs ih =>
    by_cases h : le b a = true <;> simp [insertStable, h, ih] <;> tauto

/-- Membership through the insertion fold underlying `stableSort`. -/
theorem mem_stableSort_fold (le : α → α → Bool) (l acc : List α) (x : α) :
    x ∈ l.foldl (fun acc a => insertStable le a acc) acc ↔ x ∈ acc ∨ x ∈ l := by
  induction l generalizing acc with
  | nil => simp
  | cons a as ih =>
    simp only [List.foldl_cons, ih, mem_insertStable, List.mem_cons]
    tauto

/-- `stableSort` permutes membership. -/
theorem mem_stableSort (le : α → α → Bool) (l : List α) (x : α) :
    x ∈ stableSort le l ↔ x ∈ l := by
  simp [stableSort, mem_stableSort_fold]

/-- A list with a repeated element strictly shrinks under `dedup`. -/
theorem dedup_length_lt_of_not_nodup [DecidableEq α] (l : List α) (h : ¬ l.Nodup) :
    l.dedup.length < l.length := by
  rcases Nat.lt_or_ge l.dedup.length l.length with hlt | hge
  · exact hlt
  · exfalso
    have hsub := List.dedup_sublist l
    have heq : l.dedup = l := hsub.eq_of_length (le_antisymm hsub.length_le hge)
    exact h (heq ▸ List.nodup_dedup l)

/-! ## C1 -/

/-- C1: for a well-formed paper (both `arxiv_id` and `abstract` present, as
`transform_paper` demands), the transformation yields exactly one view per
category plus one per author plus one per keyword extracted from the
abstract with top-K 10. -/
theorem C1_transform_paper_view_count (p : Paper) (aid abst : String)
    (h1 : p.arxiv_id = some aid) (h2 : p.abstract = some abst)
    (items : List Item) (h : transform_paper p = .ok items) :
    items.length = (p.categories.getD []).length + (p.authors.getD []).length
      + (extract_keywords abst 10).length := by
  unfold transform_paper at h
  rw [h1, h2] at h
  simp only [Except.ok.injEq] at h
  subst h
  simp [List.length_append, List.length_map, Nat.add_assoc]

/-- Witness for C1 at a concrete paper with 2 categories, 1 author and a
2-keyword abstract. -/
theorem C1_transform_paper_view_count_witness :
    ∃ items : List Item,
      transform_paper
        { arxiv_id := some "w1", title := some "T", authors := some ["A"],
          categories := some ["cs.LG", "cs.AI"], abstract := some "deep nets",
          published := some "2024-01-01" } = .ok items
      ∧ items.length = 2 + 1 + 2 := by
  refine ⟨_, rfl, ?_⟩
  have := C1_transform_paper_view_count
    { arxiv_id := some "w1", title := some "T", authors := some ["A"],
      categories := some ["cs.LG", "cs.AI"], abstract := some "deep nets",
      published := some "2024-01-01" } "w1" "deep nets" rfl rfl _ rfl
  rw [this]
  decide

/-! ## C7 -/

/-- C7 (failing-input evaluation): an absent `arxiv_id` is fatal as claimed,
and absent `title`/`authors`/`categories`/`published` degrade gracefully —
but an absent `abstract` also raises (`p["abstract"]` on line 130 of
load_data.py, although line 127 had already read it with a default), so the
claim that only the id field is fatal does not hold of the code. -/
theorem C7_missing_field_behaviour :
    transform_paper
      { arxiv_id := none, title := some "T", authors := some ["A"],
        categories := some ["cs.LG"], abstract := some "x",
        published := some "2024-01-01" } = .error "KeyError: arxiv_id"
    ∧ transform_paper
      { arxiv_id := some "0001", title := some "T", authors := some ["A"],
        categories := some ["cs.LG"], abstract := none,
        published := some "2024-01-01" } = .error "KeyError: abstract"
    ∧ (transform_paper
      { arxiv_id := some "0001", title := none, authors := none,
        categories := none, abstract := some "deep nets",
        published := none }).isOk = true
    ∧ (transform_paper
      { arxiv_id := some "0001", title := some "T", authors := some [],
        categories := some [], abstract := some "deep nets",
        published := some "2024-01-01" }).toOption.map
        (fun l => l.map (fun it => (it.PK, it.type)))
      = some [("KEYWORD#deep", some "KW"), ("KEYWORD#nets", some "KW")] := by
  refine ⟨rfl, rfl, by decide, by decide⟩

/-! ## C8 -/

/-- C8: every view record emitted for one paper carries the same
`arxiv_id`, `title`, `categories` and `published` values. -/
theorem C8_views_share_display_fields (p : Paper) (items : List Item)
    (h : transform_paper p = .ok items) :
    ∀ a ∈ items, ∀ b ∈ items,
      a.arxiv_id = b.arxiv_id ∧ a.title = b.title
        ∧ a.categories = b.categories ∧ a.published = b.published := by
  unfold transform_paper at h
  cases hA : p.arxiv_id with
  | none => rw [hA] at h; exact absurd h (by simp)
  | some aid =>
    rw [hA] at h
    cases hB : p.abstract with
    | none => rw [hB] at h; exact absurd h (by simp)
    | some abst =>
      rw [hB] at h
      simp only [Except.ok.injEq] at h
      subst h
      intro a ha b hb
      simp only [List.mem_append, List.mem_map] at ha hb
      rcases ha with (⟨c, _, rfl⟩ | ⟨c, _, rfl⟩) | ⟨c, _, rfl⟩ <;>
        rcases hb with (⟨d, _, rfl⟩ | ⟨d, _, rfl⟩) | ⟨d, _, rfl⟩ <;>
          exact ⟨rfl, rfl, rfl, rfl⟩

/-- Witness for C8 at `paperTwoCats`. -/
theorem C8_views_share_display_fields_witness :
    catViewLG.arxiv_id = authorViewA.arxiv_id ∧ catViewLG.title = authorViewA.title
      ∧ catViewLG.categories = authorViewA.categories
      ∧ catViewLG.published = authorViewA.published := by
  have hok : transform_paper paperTwoCats = .ok storeTwoCats := rfl
  exact C8_views_share_display_fields paperTwoCats storeTwoCats hok
    catViewLG (by decide) authorViewA (by decide)

/-! ## C9 -/

/-- C9: `transform_paper` (keyword extraction included) is a pure function
of the paper's field values — re-invocation yields the identical view list,
and two papers with equal fields transform identically; there is no other
input (counter, clock, randomness) the embedding could depend on. -/
theorem C9_transform_paper_deterministic (p q : Paper)
    (h1 : p.arxiv_id = q.arxiv_id) (h2 : p.title = q.title)
    (h3 : p.authors = q.authors) (h4 : p.categories = q.categories)
    (h5 : p.abstract = q.abstract) (h6 : p.published = q.published) :
    transform_paper p = transform_paper q
      ∧ transform_paper p = transform_paper p := by
  have hpq : p = q := by cases p; cases q; simp_all
  subst hpq
  exact ⟨rfl, rfl⟩

/-- Witness for C9 at `paperTwoCats` compared with itself. -/
theorem C9_transform_paper_deterministic_witness :
    transform_paper paperTwoCats = transform_paper paperTwoCats := by
  exact (C9_transform_paper_deterministic paperTwoCats paperTwoCats
    rfl rfl rfl rfl rfl rfl).1

/-! ## C10 -/

/-- C10: a repeated category value yields view records with colliding
`(PK, SK)` primary keys, so the number of distinct keys — what survives a
key-based upsert — drops strictly below N + M + K. -/
theorem C10_duplicate_categories_collide (p : Paper) (aid abst : String)
    (h1 : p.arxiv_id = some aid) (h2 : p.abstract = some abst)
    (items : List Item) (h : transform_paper p = .ok items)
    (hdup : ¬ (p.categories.getD []).Nodup) :
    ¬ (items.map (fun it => (it.PK, it.SK))).Nodup
      ∧ (items.map (fun it => (it.PK, it.SK))).dedup.length <
        (p.categories.getD []).length + (p.authors.getD []).length
          + (extract_keywords abst 10).length := by
  have hlen := C1_transform_paper_view_count p aid abst h1 h2 items h
  have hkeys : ¬ (items.map (fun it => (it.PK, it.SK))).Nodup := by
    intro hnd
    apply hdup
    unfold transform_paper at h
    rw [h1, h2] at h
    simp only [Except.ok.injEq] at h
    subst h
    rw [List.map_append, List.map_append] at hnd
    have hleft := (hnd.of_append_left).of_append_left
    rw [List.map_map] at hleft
    exact hleft.of_map _
  refine ⟨hkeys, ?_⟩
  have hlt := dedup_length_lt_of_not_nodup _ hkeys
  rw [List.length_map] at hlt
  omega

/-- Witness for C10 at a paper listing `cs.LG` twice. -/
theorem C10_duplicate_categories_collide_witness :
    ∃ items : List Item,
      transform_paper
        { arxiv_id := some "d1", title := some "T", authors := some ["A"],
          categories := some ["cs.LG", "cs.LG"], abstract := some "",
          published := some "2024-01-01" } = .ok items
      ∧ ¬ (items.map (fun it => (it.PK, it.SK))).Nodup := by
  refine ⟨_, rfl, ?_⟩
  exact (C10_duplicate_categories_collide
    { arxiv_id := some "d1", title := some "T", authors := some ["A"],
      categories := some ["cs.LG", "cs.LG"], abstract := some "",
      published := some "2024-01-01" } "d1" "" rfl rfl _ rfl (by decide)).1

/-! ## C4 -/

/-- C4 (failing-input evaluation): on the spec's three-paper fixture the
underlying query respects the limit and descending order, but the CLI
`recent` branch invoked with `--limit 2` still returns all three rows —
line 128 of query_papers.py passes the constant `limit=10` instead of the
parsed argument, which the printed `parameters` nevertheless report. -/
theorem C4_cli_recent_ignores_limit :
    query_recent_in_category recentStore "cs.LG" 2 = [itemJan3, itemJan2]
    ∧ cli_recent recentStore "cs.LG" 2 =
      { results := [displayOf itemJan3, displayOf itemJan2, displayOf itemJan1],
        count := 3 }
    ∧ (cli_recent recentStore "cs.LG" 2).count ≠ 2 := by
  refine ⟨by decide, by decide, by decide⟩

/-! ## C5 -/

/-- C5 (failing-input evaluation): with an empty store, four of the five CLI
operations report an empty result set with count 0 as the claim states, but
the by-id operation does not — `get_paper_by_id` signals "no match" with an
empty list and main then calls `.get` on that list, raising
`AttributeError` instead of succeeding. -/
theorem C5_zero_match_outcomes :
    cli_recent [] "cs.LG" 5 = { results := [], count := 0 }
    ∧ cli_author [] "Smith" = { results := [], count := 0 }
    ∧ cli_daterange [] "cs.LG" "2024-01-01" "2024-01-31" = { results := [], count := 0 }
    ∧ cli_keyword [] "cache" 5 = { results := [], count := 0 }
    ∧ cli_get [] "0001" = .error "AttributeError: list object has no attribute get" := by
  refine ⟨by decide, by decide, by decide, by decide, rfl⟩

/-! ## C6 -/

/-- C6 (failing-input evaluation): for a paper with two categories the CLI
by-id path de-duplicates to the first match and projects display fields
only, but api_server's `handle_get_by_id` returns both raw category view
records — internal key attributes (`PK`, `SK`, `GSI2PK`) included — while
hard-coding `count` to 1, so the by-id operation as exposed over HTTP
violates both halves of the claim. -/
theorem C6_by_id_raw_views :
    transform_paper paperTwoCats = .ok storeTwoCats
    ∧ handle_get_by_id storeTwoCats "0001" = .ok ([catViewLG, catViewAI], 1)
    ∧ catViewLG.PK = "CATEGORY#cs.LG" ∧ catViewLG.GSI2PK = some "ARXIV_ID#0001"
    ∧ catViewAI.PK = "CATEGORY#cs.AI" ∧ catViewAI.GSI2PK = some "ARXIV_ID#0001"
    ∧ cli_get storeTwoCats "0001" = .ok (displayOf catViewLG, 1) := by
  refine ⟨rfl, rfl, rfl, rfl, rfl, rfl, rfl⟩

end ArxivPipeline

namespace ArxivPipeline

/-! ## Lexicographic-order lemmas for the sort-key sentinel (C3) -/

/-- A sequence is `lexLe` any extension of itself. -/
theorem lexLe_append_self (a r : List Char) : lexLe a (a ++ r) = true := by
  induction a with
  | nil => rfl
  | cons c cs ih => simp [lexLe, List.cons_append, lt_irrefl, ih]

/-- A common prefix cancels on both sides of `lexLe`. -/
theorem lexLe_append_cancel (p x y : List Char) :
    lexLe (p ++ x) (p ++ y) = lexLe x y := by
  induction p with
  | nil => rfl
  | cons c cs ih => simp [lexLe, List.cons_append, lt_irrefl, ih]

/-- A strict comparison of equal-length sequences survives arbitrary
suffixes: the first difference lies within the common length. -/
theorem lexLt_append_of_lexLt (a b : List Char) (hlen : a.length = b.length)
    (h : lexLt a b = true) :
    ∀ x y : List Char, lexLt (a ++ x) (b ++ y) = true := by
  induction a generalizing b with
  | nil =>
    cases b with
    | nil => exact absurd h (by simp [lexLt])
    | cons d ds => simp at hlen
  | cons c cs ih =>
    cases b with
    | nil => simp at hlen
    | cons d ds =>
      intro x y
      simp only [lexLt, List.cons_append] at h ⊢
      by_cases hcd : c < d
      · simp [hcd]
      · simp only [if_neg hcd] at h ⊢
        by_cases hce : c = d
        · simp only [if_pos hce] at h ⊢
          exact ih ds (by simpa using hlen) h x y
        · simp [hce] at h

/-- `lexLt` implies `lexLe`. -/
theorem lexLe_of_lexLt (a b : List Char) (h : lexLt a b = true) :
    lexLe a b = true := by
  induction a generalizing b with
  | nil => rfl
  | cons c cs ih =>
    cases b with
    | nil => exact absurd h (by simp [lexLt])
    | cons d ds =>
      simp only [lexLt] at h
      simp only [lexLe]
      by_cases hcd : c < d
      · simp [hcd]
      · simp only [if_neg hcd] at h ⊢
        by_cases hce : c = d
        · simp only [if_pos hce] at h ⊢
          exact ih ds h
        · simp [hce] at h

/-- `lexLt` is asymmetric with `lexLe`. -/
theorem lexLe_eq_false_of_lexLt (a b : List Char) (h : lexLt a b = true) :
    lexLe b a = false := by
  induction a generalizing b with
  | nil =>
    cases b with
    | nil => exact absurd h (by simp [lexLt])
    | cons d ds => rfl
  | cons c cs ih =>
    cases b with
    | nil => exact absurd h (by simp [lexLt])
    | cons d ds =>
      simp only [lexLt] at h
      simp only [lexLe]
      by_cases hcd : c < d
      · have hdc : ¬ d < c := lt_asymm hcd
        have hne : d ≠ c := ne_of_gt hcd
        simp [hdc, hne]
      · simp only [if_neg hcd] at h
        by_cases hce : c = d
        · subst hce
          simp only [if_pos rfl] at h
          simp [lt_irrefl, ih ds h]
        · simp [hce] at h

/-- `lexLe` splits into strict comparison or equality. -/
theorem lexLe_iff_lexLt_or_eq (a b : List Char) :
    lexLe a b = true ↔ lexLt a b = true ∨ a = b := by
  induction a generalizing b with
  | nil =>
    cases b with
    | nil => simp [lexLe, lexLt]
    | cons d ds => simp [lexLe, lexLt]
  | cons c cs ih =>
    cases b with
    | nil => simp [lexLe, lexLt]
    | cons d ds =>
      simp only [lexLe, lexLt]
      by_cases hcd : c < d
      · simp [hcd]
      · simp only [if_neg hcd]
        by_cases hce : c = d
        · subst hce
          simp [ih, List.cons.injEq]
        · simp [hce]

/-! ## C3 -/

/-- C3: a category view whose sort key is `d ++ "#" ++ id`, for a
fixed-width date `d` in the closed interval from `start_date` to
`end_date` and an id `lexLe` the `zzzzzzz` sentinel, is returned by the
date-range query; a view dated strictly after `end_date` is not. -/
theorem C3_date_range_inclusive (store : Store) (cat start_date end_date d aid : String)
    (it : Item) (hmem : it ∈ store)
    (hPK : it.PK = "CATEGORY#" ++ cat)
    (hSK : it.SK = d ++ "#" ++ aid)
    (hlen1 : start_date.data.length = d.data.length)
    (hlen2 : end_date.data.length = d.data.length)
    (hid : lexLe aid.data "zzzzzzz".data = true) :
    (skLe start_date d = true → skLe d end_date = true →
      it ∈ query_papers_in_date_range store cat start_date end_date)
    ∧ (lexLt end_date.data d.data = true →
      it ∉ query_papers_in_date_range store cat start_date end_date) := by
  have hSKdata : it.SK.data = (d.data ++ ['#']) ++ aid.data := by
    rw [hSK]
    simp [String.data_append]
  have hupper : (end_date ++ "#zzzzzzz").data
      = end_date.data ++ ['#'] ++ "zzzzzzz".data := by
    simp [String.data_append]
  have hlower : (start_date ++ "#").data = start_date.data ++ ['#'] := by
    simp [String.data_append]
  constructor
  · intro hs he
    unfold query_papers_in_date_range sortByKey
    rw [mem_stableSort]
    rw [List.mem_filter]
    refine ⟨hmem, ?_⟩
    simp only [Bool.and_eq_true, decide_eq_true_eq]
    refine ⟨⟨hPK, ?_⟩, ?_⟩
    · show lexLe (start_date ++ "#").data it.SK.data = true
      rw [hlower, hSKdata]
      rcases (lexLe_iff_lexLt_or_eq _ _).mp hs with hlt | heq
      · rw [List.append_assoc]
        exact lexLe_of_lexLt _ _
          (lexLt_append_of_lexLt _ _ hlen1 hlt _ _)
      · rw [heq]
        exact lexLe_append_self _ _
    · show lexLe it.SK.data (end_date ++ "#zzzzzzz").data = true
      rw [hupper, hSKdata]
      rcases (lexLe_iff_lexLt_or_eq _ _).mp he with hlt | heq
      · rw [List.append_assoc, List.append_assoc]
        exact lexLe_of_lexLt _ _
          (lexLt_append_of_lexLt _ _ hlen2.symm hlt _ _)
      · rw [← heq, lexLe_append_cancel]
        exact hid
  · intro hafter hin
    unfold query_papers_in_date_range sortByKey at hin
    rw [mem_stableSort, List.mem_filter] at hin
    have hcond := hin.2
    simp only [Bool.and_eq_true, decide_eq_true_eq] at hcond
    have hle : lexLe it.SK.data (end_date ++ "#zzzzzzz").data = true := hcond.2
    rw [hupper, hSKdata] at hle
    have hfalse : lexLe (d.data ++ ['#'] ++ aid.data)
        (end_date.data ++ ['#'] ++ "zzzzzzz".data) = false := by
      rw [List.append_assoc, List.append_assoc]
      exact lexLe_eq_false_of_lexLt _ _
        (lexLt_append_of_lexLt end_date.data d.data hlen2 hafter _ _)
    rw [hfalse] at hle
    exact Bool.noConfusion hle

end ArxivPipeline

namespace ArxivPipeline

/-- Witness for C3 on the recency fixture: the range 2024-01-01..2024-01-02
returns the paper dated exactly on the end date's lower bound and excludes
the one dated 2024-01-03. -/
theorem C3_date_range_inclusive_witness :
    itemJan1 ∈ query_papers_in_date_range recentStore "cs.LG" "2024-01-01" "2024-01-02"
    ∧ itemJan3 ∉ query_papers_in_date_range recentStore "cs.LG" "2024-01-01" "2024-01-02" := by
  constructor
  · exact (C3_date_range_inclusive recentStore "cs.LG" "2024-01-01" "2024-01-02"
      "2024-01-01" "a1" itemJan1 (by decide) (by decide) (by decide) (by decide)
      (by decide) (by decide)).1 (by decide) (by decide)
  · exact (C3_date_range_inclusive recentStore "cs.LG" "2024-01-01" "2024-01-02"
      "2024-01-03" "a2" itemJan3 (by decide) (by decide) (by decide) (by decide)
      (by decide) (by decide)).2 (by decide)

end ArxivPipeline

namespace ArxivPipeline

/-! ## Character and token-shape lemmas (C2) -/

/-- `Char.ofNat` on a valid scalar value round-trips through `toNat`. -/
theorem toNat_ofNat_of_valid (n : Nat) (h : Nat.isValidChar n) :
    (Char.ofNat n).toNat = n := by
  simp [Char.ofNat, h]
  simp [Char.ofNatAux, Char.toNat, UInt32.toNat]

/-- On an uppercase ASCII letter, `Char.toLower` adds 32 to the scalar value. -/
theorem toLower_toNat_of_upper (c : Char) (h1 : 65 ≤ c.toNat) (h2 : c.toNat ≤ 90) :
    (Char.toLower c).toNat = c.toNat + 32 := by
  unfold Char.toLower
  rw [if_pos ⟨h1, h2⟩]
  exact toNat_ofNat_of_valid _ (Or.inl (by omega))

/-- Outside the uppercase ASCII range, `Char.toLower` is the identity. -/
theorem toLower_eq_self_of_not_upper (c : Char) (h : ¬ (65 ≤ c.toNat ∧ c.toNat ≤ 90)) :
    Char.toLower c = c := by
  unfold Char.toLower
  rw [if_neg h]

/-- Char order coincides with scalar-value order. -/
theorem char_le_iff_toNat (a b : Char) : a ≤ b ↔ a.toNat ≤ b.toNat := by
  rw [Char.le_def]
  exact Iff.rfl

/-- Lowercasing a token-start character lands in `a`–`z`. -/
theorem lower_of_isTokenStart (c : Char) (h : isTokenStart c = true) :
    ('a' ≤ Char.toLower c && Char.toLower c ≤ 'z') = true := by
  simp only [isTokenStart, Bool.or_eq_true, Bool.and_eq_true, decide_eq_true_eq] at h
  simp only [Bool.and_eq_true, decide_eq_true_eq, char_le_iff_toNat]
  rcases h with ⟨h1, h2⟩ | ⟨h1, h2⟩
  · rw [char_le_iff_toNat] at h1 h2
    have hlow : Char.toLower c = c := toLower_eq_self_of_not_upper c (by
      show ¬ (65 ≤ c.toNat ∧ c.toNat ≤ 90)
      have : (97 : Nat) ≤ c.toNat := h1
      omega)
    rw [hlow]
    exact ⟨h1, h2⟩
  · rw [char_le_iff_toNat] at h1 h2
    have h1n : (65 : Nat) ≤ c.toNat := h1
    have h2n : c.toNat ≤ (90 : Nat) := h2
    have := toLower_toNat_of_upper c h1n h2n
    constructor
    · show ('a' : Char).toNat ≤ _
      rw [this]
      show (97 : Nat) ≤ _
      omega
    · show _ ≤ ('z' : Char).toNat
      rw [this]
      show _ ≤ (122 : Nat)
      omega

/-- Lowercasing a token character yields a lowercase letter, digit or hyphen. -/
theorem lower_of_isTokenChar (c : Char) (h : isTokenChar c = true) :
    (('a' ≤ Char.toLower c && Char.toLower c ≤ 'z')
      || ('0' ≤ Char.toLower c && Char.toLower c ≤ '9')
      || Char.toLower c = '-') = true := by
  simp only [isTokenChar, Bool.or_eq_true] at h
  rcases h with (hst | hd) | hh
  · simp only [Bool.or_eq_true]
    exact Or.inl (Or.inl (lower_of_isTokenStart c hst))
  · simp only [Bool.and_eq_true, decide_eq_true_eq] at hd
    obtain ⟨h1, h2⟩ := hd
    rw [char_le_iff_toNat] at h1 h2
    have h1n : (48 : Nat) ≤ c.toNat := h1
    have h2n : c.toNat ≤ (57 : Nat) := h2
    have hlow : Char.toLower c = c := toLower_eq_self_of_not_upper c (by omega)
    simp only [Bool.or_eq_true, Bool.and_eq_true, decide_eq_true_eq, hlow,
      char_le_iff_toNat]
    exact Or.inl (Or.inr ⟨h1n, h2n⟩)
  · simp only [decide_eq_true_eq] at hh
    subst hh
    decide

/-- A reversed accumulator extended by a token character stays well shaped. -/
theorem goodTok_reverse_cons (a : Char) (acc : List Char) (c : Char)
    (hgood : goodTok (a :: acc).reverse) (hc : isTokenChar c = true) :
    goodTok (c :: a :: acc).reverse := by
  rw [List.reverse_cons]
  rcases hrev : (a :: acc).reverse with _ | ⟨h0, t⟩
  · exact absurd hrev (by simp)
  · rw [hrev] at hgood
    obtain ⟨hstart, hrest⟩ := hgood
    refine ⟨hstart, ?_⟩
    intro d hd
    rcases List.mem_append.mp hd with hd | hd
    · exact hrest d hd
    · rw [List.mem_singleton] at hd
      subst hd
      exact hc

/-- Every sequence emitted by the tokenizer loop is a well-shaped token,
provided the accumulator is empty or itself well shaped. -/
theorem tokenizeGo_good (l : List Char) :
    ∀ acc : List Char, (acc = [] ∨ goodTok acc.reverse) →
      ∀ cs ∈ tokenizeGo l acc, goodTok cs := by
  induction l with
  | nil =>
    intro acc hacc cs hcs
    cases acc with
    | nil => simp [tokenizeGo] at hcs
    | cons a as =>
      simp only [tokenizeGo, List.mem_singleton] at hcs
      subst hcs
      rcases hacc with h | h
      · exact absurd h (by simp)
      · exact h
  | cons c rest ih =>
    intro acc hacc cs hcs
    cases acc with
    | nil =>
      simp only [tokenizeGo] at hcs
      by_cases hst : isTokenStart c = true
      · rw [if_pos hst] at hcs
        refine ih [c] (Or.inr ?_) cs hcs
        exact ⟨hst, by intro d hd; simp at hd⟩
      · rw [if_neg hst] at hcs
        exact ih [] (Or.inl rfl) cs hcs
    | cons a as =>
      have hgood : goodTok (a :: as).reverse := by
        rcases hacc with h | h
        · exact absurd h (by simp)
        · exact h
      simp only [tokenizeGo] at hcs
      by_cases htc : isTokenChar c = true
      · rw [if_pos htc] at hcs
        exact ih (c :: a :: as) (Or.inr (goodTok_reverse_cons a as c hgood htc)) cs hcs
      · rw [if_neg htc] at hcs
        rcases List.mem_cons.mp hcs with hceq | hmem
        · subst hceq
          exact hgood
        · exact ih [] (Or.inl rfl) cs hmem

/-- Tokenizer matches are well shaped. -/
theorem goodTok_of_mem_findall (text : String) (cs : List Char)
    (h : cs ∈ findallTokens text) : goodTok cs :=
  tokenizeGo_good text.data [] (Or.inl rfl) cs h

/-- Lowercasing a well-shaped token gives a lowercase token matching
`[a-zA-Z][a-zA-Z0-9-]*`. -/
theorem isLowerToken_of_goodTok (cs : List Char) (h : goodTok cs) :
    isLowerToken (String.mk (cs.map Char.toLower)) = true := by
  cases cs with
  | nil => exact absurd h (by simp [goodTok])
  | cons c rest =>
    obtain ⟨h1, h2⟩ := h
    have heq : isLowerToken (String.mk (Char.toLower c :: rest.map Char.toLower))
        = (('a' ≤ Char.toLower c && Char.toLower c ≤ 'z')
          && (rest.map Char.toLower).all
            (fun d => ('a' ≤ d && d ≤ 'z') || ('0' ≤ d && d ≤ '9') || decide (d = '-'))) := rfl
    rw [List.map_cons, heq, Bool.and_eq_true]
    refine ⟨lower_of_isTokenStart c h1, ?_⟩
    rw [List.all_eq_true]
    intro d hd
    rcases List.mem_map.mp hd with ⟨e, he, rfl⟩
    have := lower_of_isTokenChar e (h2 e he)
    simpa using this

/-! ## First-occurrence index lemmas (C2) -/

/-- `firstIdx` ignores a suffix when the element occurs in the prefix. -/
theorem firstIdx_append_of_mem (l r : List String) (u : String) (h : u ∈ l) :
    firstIdx (l ++ r) u = firstIdx l u := by
  induction l with
  | nil => simp at h
  | cons a as ih =>
    by_cases hau : a = u
    · simp [firstIdx, List.cons_append, hau]
    · have hmem : u ∈ as := by
        rcases List.mem_cons.mp h with h' | h'
        · exact absurd h'.symm hau
        · exact h'
      simp [firstIdx, List.cons_append, hau, ih hmem]

/-- `firstIdx` of an element absent from the prefix skips the whole prefix. -/
theorem firstIdx_append_of_not_mem (l r : List String) (u : String) (h : u ∉ l) :
    firstIdx (l ++ r) u = l.length + firstIdx r u := by
  induction l with
  | nil => simp
  | cons a as ih =>
    have hau : a ≠ u := fun hh => h (hh ▸ List.mem_cons_self a as)
    have hnot : u ∉ as := fun hm => h (List.mem_cons_of_mem _ hm)
    simp [firstIdx, List.cons_append, hau, ih hnot]
    omega

/-- The first occurrence of a member lies inside the list. -/
theorem firstIdx_lt_length (l : List String) (u : String) (h : u ∈ l) :
    firstIdx l u < l.length := by
  induction l with
  | nil => simp at h
  | cons a as ih =>
    by_cases hau : a = u
    · simp [firstIdx, hau]
    · have hmem : u ∈ as := by
        rcases List.mem_cons.mp h with h' | h'
        · exact absurd h'.symm hau
        · exact h'
      simp only [firstIdx, if_neg hau, List.length_cons]
      exact Nat.succ_lt_succ (ih hmem)

/-- First-occurrence order inside a filtered list refines first-occurrence
order in the base list. -/
theorem firstIdx_filter_lt (q : String → Bool) (l : List String) (a b : String)
    (hb : b ∈ l.filter q)
    (h : firstIdx (l.filter q) a < firstIdx (l.filter q) b) :
    firstIdx l a < firstIdx l b := by
  induction l with
  | nil => simp at hb
  | cons x xs ih =>
    by_cases hqx : q x = true
    · rw [List.filter_cons_of_pos hqx] at h hb
      by_cases hxa : x = a
      · subst hxa
        by_cases hxb : x = b
        · subst hxb
          simp [firstIdx] at h
        · simp [firstIdx, hxb]
      · by_cases hxb : x = b
        · subst hxb
          simp [firstIdx, hxa] at h
        · rw [firstIdx, firstIdx, if_neg hxa, if_neg hxb] at h
          have hmem : b ∈ xs.filter q := by
            rcases List.mem_cons.mp hb with h' | h'
            · exact absurd h'.symm hxb
            · exact h'
          have := ih hmem (Nat.succ_lt_succ_iff.mp h)
          simp only [firstIdx, if_neg hxa, if_neg hxb]
          exact Nat.succ_lt_succ this
    · rw [List.filter_cons_of_neg hqx] at h hb
      have hxb : x ≠ b := by
        intro hh
        subst hh
        exact hqx (List.mem_filter.mp hb).2
      by_cases hxa : x = a
      · subst hxa
        simp [firstIdx, hxb]
      · have := ih hb h
        simp only [firstIdx, if_neg hxa, if_neg hxb]
        exact Nat.succ_lt_succ this

end ArxivPipeline

namespace ArxivPipeline

/-! ## Counter lemmas (C2) -/

/-- `bump` increments exactly the bumped key's count. -/
theorem lookupC_bump (acc : List (String × Nat)) (t u : String) :
    lookupC (bump acc t) u = if u = t then lookupC acc t + 1 else lookupC acc u := by
  induction acc with
  | nil =>
    simp only [bump, lookupC]
    by_cases h : t = u
    · subst h
      simp
    · rw [if_neg h, if_neg (fun hh : u = t => h hh.symm)]
  | cons p rest ih =>
    obtain ⟨k, n⟩ := p
    by_cases hkt : k = t
    · subst hkt
      by_cases hku : k = u
      · subst hku
        simp [bump, lookupC]
      · have huk : ¬ u = k := fun h => hku h.symm
        simp [bump, lookupC, hku, huk]
    · by_cases hku : k = u
      · subst hku
        have hut : ¬ k = t := hkt
        have hut2 : ¬ (k = t) := hkt
        simp [bump, lookupC, hkt]
      · simp [bump, lookupC, hkt, hku, ih]

/-- `bump` leaves the key sequence unchanged when the key is present and
appends it otherwise. -/
theorem bump_keys (acc : List (String × Nat)) (t : String) :
    (bump acc t).map Prod.fst
      = if t ∈ acc.map Prod.fst then acc.map Prod.fst
        else acc.map Prod.fst ++ [t] := by
  induction acc with
  | nil => simp [bump]
  | cons p rest ih =>
    obtain ⟨k, n⟩ := p
    by_cases hkt : k = t
    · subst hkt
      simp [bump]
    · have hne : t ≠ k := fun h => hkt h.symm
      simp only [bump, if_neg hkt, List.map_cons, List.mem_cons, hne, false_or]
      rw [ih]
      by_cases hm : t ∈ rest.map Prod.fst
      · simp [hm]
      · simp [hm]

/-- `bump` keeps all counts positive. -/
theorem bump_pos (acc : List (String × Nat)) (t : String)
    (h : ∀ p ∈ acc, 1 ≤ p.2) : ∀ p ∈ bump acc t, 1 ≤ p.2 := by
  induction acc with
  | nil =>
    intro p hp
    simp only [bump, List.mem_singleton] at hp
    subst hp
    simp
  | cons q rest ih =>
    obtain ⟨k, n⟩ := q
    intro p hp
    by_cases hkt : k = t
    · subst hkt
      simp only [bump, if_pos rfl] at hp
      rcases List.mem_cons.mp hp with rfl | hmem
      · simp
      · exact h p (List.mem_cons_of_mem _ hmem)
    · simp only [bump, if_neg hkt] at hp
      rcases List.mem_cons.mp hp with rfl | hmem
      · exact h _ (List.mem_cons_self _ _)
      · exact ih (fun q hq => h q (List.mem_cons_of_mem _ hq)) p hmem

/-- An absent key looks up to 0. -/
theorem lookupC_eq_zero_of_not_mem (acc : List (String × Nat)) (u : String)
    (h : u ∉ acc.map Prod.fst) : lookupC acc u = 0 := by
  induction acc with
  | nil => rfl
  | cons p rest ih =>
    obtain ⟨k, n⟩ := p
    simp only [List.map_cons, List.mem_cons] at h
    push_neg at h
    simp only [lookupC]
    rw [if_neg (fun hh : k = u => h.1 hh.symm)]
    exact ih h.2

/-- With distinct keys, lookup of a member returns its stored count. -/
theorem lookupC_of_mem (acc : List (String × Nat)) (p : String × Nat)
    (hnd : (acc.map Prod.fst).Nodup) (hp : p ∈ acc) :
    lookupC acc p.1 = p.2 := by
  induction acc with
  | nil => simp at hp
  | cons q rest ih =>
    obtain ⟨k, n⟩ := q
    simp only [List.map_cons, List.nodup_cons] at hnd
    rcases List.mem_cons.mp hp with rfl | hmem
    · simp [lookupC]
    · have hne : k ≠ p.1 := by
        intro hh
        exact hnd.1 (hh ▸ List.mem_map_of_mem Prod.fst hmem)
      simp only [lookupC, if_neg hne]
      exact ih hnd.2 hmem

/-- Invariant of the Counter fold: lookups agree with occurrence counts of
the consumed prefix, keys are listed in strictly increasing order of first
occurrence, and all counts are positive. -/
theorem counter_inv (ts : List String) :
    ∀ (pre : List String) (acc : List (String × Nat)),
      (∀ u, lookupC acc u = pre.count u) →
      ((acc.map Prod.fst).Pairwise (fun k₁ k₂ => firstIdx pre k₁ < firstIdx pre k₂)) →
      (∀ p ∈ acc, 1 ≤ p.2) →
      (∀ u, lookupC (ts.foldl bump acc) u = (pre ++ ts).count u)
      ∧ (((ts.foldl bump acc).map Prod.fst).Pairwise
          (fun k₁ k₂ => firstIdx (pre ++ ts) k₁ < firstIdx (pre ++ ts) k₂))
      ∧ (∀ p ∈ ts.foldl bump acc, 1 ≤ p.2) := by
  induction ts with
  | nil =>
    intro pre acc h1 h2 h3
    simp only [List.foldl_nil, List.append_nil]
    exact ⟨h1, h2, h3⟩
  | cons t rest ih =>
    intro pre acc h1 h2 h3
    have hnd : (acc.map Prod.fst).Nodup :=
      h2.imp (fun {a b} hlt heq => absurd (heq ▸ hlt) (by simp))
    have hkeysub : ∀ k ∈ acc.map Prod.fst, k ∈ pre := by
      intro k hk
      obtain ⟨p, hp, rfl⟩ := List.mem_map.mp hk
      have hv := lookupC_of_mem acc p hnd hp
      have hpos := h3 p hp
      have hcnt : 0 < pre.count p.1 := by
        rw [← h1 p.1, hv]
        omega
      exact List.count_pos_iff.mp hcnt
    have step1 : ∀ u, lookupC (bump acc t) u = (pre ++ [t]).count u := by
      intro u
      rw [lookupC_bump]
      by_cases hut : u = t
      · subst hut
        rw [if_pos rfl, h1 u]
        simp [List.count_append]
      · rw [if_neg hut, h1 u]
        have : ¬ (t = u) := fun h => hut h.symm
        simp [List.count_append, List.count_singleton, this]
    have step2 : ((bump acc t).map Prod.fst).Pairwise
        (fun k₁ k₂ => firstIdx (pre ++ [t]) k₁ < firstIdx (pre ++ [t]) k₂) := by
      rw [bump_keys]
      by_cases hm : t ∈ acc.map Prod.fst
      · rw [if_pos hm]
        refine h2.imp_of_mem ?_
        intro a b ha hb hlt
        rw [firstIdx_append_of_mem pre [t] a (hkeysub a ha),
          firstIdx_append_of_mem pre [t] b (hkeysub b hb)]
        exact hlt
      · rw [if_neg hm]
        have htpre : t ∉ pre := by
          intro hin
          have : 0 < pre.count t := List.count_pos_iff.mpr hin
          have hz := lookupC_eq_zero_of_not_mem acc t hm
          rw [h1 t] at hz
          omega
        rw [List.pairwise_append]
        refine ⟨?_, by simp, ?_⟩
        · refine h2.imp_of_mem ?_
          intro a b ha hb hlt
          rw [firstIdx_append_of_mem pre [t] a (hkeysub a ha),
            firstIdx_append_of_mem pre [t] b (hkeysub b hb)]
          exact hlt
        · intro a ha b hb
          rw [List.mem_singleton] at hb
          subst hb
          rw [firstIdx_append_of_mem pre [b] a (hkeysub a ha),
            firstIdx_append_of_not_mem pre [b] b htpre]
          have : firstIdx [b] b = 0 := by simp [firstIdx]
          rw [this]
          have := firstIdx_lt_length pre a (hkeysub a ha)
          omega
    have step3 := bump_pos acc t h3
    have := ih (pre ++ [t]) (bump acc t) step1 step2 step3
    simpa using this

/-- The Counter of a token list: lookups agree with counts, keys are in
first-occurrence order, counts are positive. -/
theorem counterList_inv (ts : List String) :
    (∀ u, lookupC (counterList ts) u = ts.count u)
    ∧ (((counterList ts).map Prod.fst).Pairwise
        (fun k₁ k₂ => firstIdx ts k₁ < firstIdx ts k₂))
    ∧ (∀ p ∈ counterList ts, 1 ≤ p.2) := by
  have := counter_inv ts [] [] (by intro u; simp [lookupC]) (by simp) (by simp)
  simpa [counterList] using this

/-- Counter keys are distinct. -/
theorem counterList_keys_nodup (ts : List String) :
    ((counterList ts).map Prod.fst).Nodup :=
  (counterList_inv ts).2.1.imp (fun {a b} hlt heq => absurd (heq ▸ hlt) (by simp))

/-- A Counter entry stores the occurrence count of its key, and its key
occurs in the list. -/
theorem mem_counterList (ts : List String) (p : String × Nat)
    (hp : p ∈ counterList ts) :
    p.2 = ts.count p.1 ∧ p.1 ∈ ts := by
  have h1 := (counterList_inv ts).1 p.1
  have hv := lookupC_of_mem _ p (counterList_keys_nodup ts) hp
  have hpos := (counterList_inv ts).2.2 p hp
  constructor
  · rw [← hv, h1]
  · apply List.count_pos_iff.mp
    rw [← h1, hv]
    omega

end ArxivPipeline

namespace ArxivPipeline

/-! ## Stability of the sort (C2) -/

/-- Inserting `x` into a list that is sorted-with-tie-tracking, where every
element precedes `x` in arrival order, preserves the property: each element
is followed only by strictly smaller ones or by tied later arrivals. -/
theorem pairwise_insertStable (le : α → α → Bool)
    (htr : ∀ a b c, le a b = true → le b c = true → le a c = true)
    (hto : ∀ a b, le a b = true ∨ le b a = true)
    (ρ : α → α → Prop) (x : α) (acc : List α)
    (hacc : acc.Pairwise (fun a b => le b a = false
      ∨ (le a b = true ∧ le b a = true ∧ ρ a b)))
    (hx : ∀ b ∈ acc, ρ b x) :
    (insertStable le x acc).Pairwise (fun a b => le b a = false
      ∨ (le a b = true ∧ le b a = true ∧ ρ a b)) := by
  induction acc with
  | nil => simp [insertStable]
  | cons b bs ih =>
    rcases List.pairwise_cons.mp hacc with ⟨hb, hbs⟩
    by_cases hle : le b x = true
    · rw [insertStable, if_pos hle]
      refine List.pairwise_cons.mpr
        ⟨?_, ih hbs (fun c hc => hx c (List.mem_cons_of_mem _ hc))⟩
      intro c hc
      rcases (mem_insertStable le x c bs).mp hc with rfl | hcmem
      · cases hxb : le c b
        · exact Or.inl rfl
        · exact Or.inr ⟨hle, rfl, hx b (List.mem_cons_self _ _)⟩
      · exact hb c hcmem
    · rw [insertStable, if_neg hle]
      have hlebx : le b x = false := by
        cases h : le b x
        · rfl
        · exact absurd h hle
      refine List.pairwise_cons.mpr ⟨?_, hacc⟩
      intro c hc
      rcases List.mem_cons.mp hc with rfl | hcmem
      · exact Or.inl hlebx
      · left
        cases hlecx : le c x
        · rfl
        · exfalso
          have hbc : le b c = true := by
            rcases hb c hcmem with hcb | ⟨hbc, _, _⟩
            · rcases hto b c with h' | h'
              · exact h'
              · rw [h'] at hcb
                exact Bool.noConfusion hcb
            · exact hbc
          rw [htr b c x hbc hlecx] at hlebx
          exact Bool.noConfusion hlebx

/-- Fold form of the stability invariant. -/
theorem pairwise_stableSort_fold (le : α → α → Bool)
    (htr : ∀ a b c, le a b = true → le b c = true → le a c = true)
    (hto : ∀ a b, le a b = true ∨ le b a = true)
    (ρ : α → α → Prop) :
    ∀ (l acc : List α),
      acc.Pairwise (fun a b => le b a = false
        ∨ (le a b = true ∧ le b a = true ∧ ρ a b)) →
      (∀ b ∈ acc, ∀ x ∈ l, ρ b x) →
      l.Pairwise ρ →
      (l.foldl (fun acc a => insertStable le a acc) acc).Pairwise
        (fun a b => le b a = false ∨ (le a b = true ∧ le b a = true ∧ ρ a b)) := by
  intro l
  induction l with
  | nil =>
    intro acc h1 _ _
    simpa using h1
  | cons x xs ih =>
    intro acc h1 h2 h3
    rcases List.pairwise_cons.mp h3 with ⟨hx, hxs⟩
    simp only [List.foldl_cons]
    apply ih
    · exact pairwise_insertStable le htr hto ρ x acc h1
        (fun b hb => h2 b hb x (List.mem_cons_self _ _))
    · intro b hb y hy
      rcases (mem_insertStable le x b acc).mp hb with rfl | hbm
      · exact hx y hy
      · exact h2 b hbm y (List.mem_cons_of_mem _ hy)
    · exact hxs

/-- A stable sort of a `ρ`-ordered list is sorted by `le` with ties ordered
by `ρ`. -/
theorem pairwise_stableSort (le : α → α → Bool)
    (htr : ∀ a b c, le a b = true → le b c = true → le a c = true)
    (hto : ∀ a b, le a b = true ∨ le b a = true)
    (ρ : α → α → Prop) (l : List α) (h : l.Pairwise ρ) :
    (stableSort le l).Pairwise (fun a b => le b a = false
      ∨ (le a b = true ∧ le b a = true ∧ ρ a b)) :=
  pairwise_stableSort_fold le htr hto ρ l [] (by simp) (by simp) h

end ArxivPipeline

namespace ArxivPipeline

/-! ## C2 -/

/-- C2: `extract_keywords text k` returns at most `k` tokens, never a
stopword, each a lowercase token matching `[a-zA-Z][a-zA-Z0-9-]*`; the
result is ordered by descending frequency with ties broken by earlier first
occurrence among the text's lowercased tokens; text whose tokens are all
stopwords (in particular empty text) yields the empty sequence; and the
spec's tie-break example evaluates as stated. -/
theorem C2_extract_keywords_contract (text : String) (k : Nat) :
    (extract_keywords text k).length ≤ k
    ∧ (∀ w ∈ extract_keywords text k, w ∉ STOPWORDS)
    ∧ (∀ w ∈ extract_keywords text k, isLowerToken w = true)
    ∧ (extract_keywords text k).Pairwise (fun w₁ w₂ =>
        (filteredTokens text).count w₂ < (filteredTokens text).count w₁
        ∨ ((filteredTokens text).count w₁ = (filteredTokens text).count w₂
          ∧ firstIdx (lowerTokens text) w₁ < firstIdx (lowerTokens text) w₂))
    ∧ ((∀ t ∈ lowerTokens text, t ∈ STOPWORDS) → extract_keywords text k = [])
    ∧ extract_keywords "cache cache lock lock cache" 2 = ["cache", "lock"] := by
  have hmemFil : ∀ w ∈ extract_keywords text k, w ∈ filteredTokens text := by
    intro w hw
    simp only [extract_keywords, mostCommon, List.mem_map] at hw
    obtain ⟨p, hp, rfl⟩ := hw
    have hp2 : p ∈ stableSort (fun a b => decide (b.2 ≤ a.2))
        (counterList (filteredTokens text)) :=
      (List.take_sublist k _).mem hp
    rw [mem_stableSort] at hp2
    exact (mem_counterList _ p hp2).2
  refine ⟨?_, ?_, ?_, ?_, ?_, by decide⟩
  · simp only [extract_keywords, mostCommon, List.length_map, List.length_take]
    exact inf_le_left
  · intro w hw
    have hfil := (List.mem_filter.mp (hmemFil w hw)).2
    simpa using hfil
  · intro w hw
    have h2 : w ∈ lowerTokens text := (List.mem_filter.mp (hmemFil w hw)).1
    simp only [lowerTokens, List.mem_map] at h2
    obtain ⟨cs, hcs, rfl⟩ := h2
    exact isLowerToken_of_goodTok cs (goodTok_of_mem_findall text cs hcs)
  · have hcnt : (counterList (filteredTokens text)).Pairwise
        (fun p q => firstIdx (lowerTokens text) p.1 < firstIdx (lowerTokens text) q.1) := by
      have hp2 := List.pairwise_map.mp (counterList_inv (filteredTokens text)).2.1
      refine hp2.imp_of_mem ?_
      intro p q hpmem hqmem hlt
      exact firstIdx_filter_lt _ _ _ _ ((mem_counterList _ q hqmem).2) hlt
    have hsorted := pairwise_stableSort (fun a b : String × Nat => decide (b.2 ≤ a.2))
      (by
        intro a b c h1 h2
        simp only [decide_eq_true_eq] at h1 h2 ⊢
        omega)
      (by
        intro a b
        simp only [decide_eq_true_eq]
        omega)
      _ _ hcnt
    have htake := List.Pairwise.sublist (List.take_sublist k _) hsorted
    simp only [extract_keywords, mostCommon]
    rw [List.pairwise_map]
    refine htake.imp_of_mem ?_
    intro p q hpmem hqmem hS
    have hpc : p ∈ counterList (filteredTokens text) := by
      have := (List.take_sublist k _).mem hpmem
      rwa [mem_stableSort] at this
    have hqc : q ∈ counterList (filteredTokens text) := by
      have := (List.take_sublist k _).mem hqmem
      rwa [mem_stableSort] at this
    have hpcount := (mem_counterList _ p hpc).1
    have hqcount := (mem_counterList _ q hqc).1
    rcases hS with hlt | ⟨h1, h2, hρ⟩
    · left
      simp only [decide_eq_false_iff_not] at hlt
      rw [← hpcount, ← hqcount]
      omega
    · right
      simp only [decide_eq_true_eq] at h1 h2
      rw [← hpcount, ← hqcount]
      exact ⟨by omega, hρ⟩
  · intro hall
    have hfil : filteredTokens text = [] := by
      apply List.filter_eq_nil_iff.mpr
      intro a ha
      have := hall a ha
      simp [this]
    simp only [extract_keywords, hfil]
    simp [mostCommon, counterList, stableSort]

/-- Witness for C2: the contract applied at concrete texts, including an
all-stopword text discharging the emptiness hypothesis. -/
theorem C2_extract_keywords_contract_witness :
    (extract_keywords "deep deep nets" 2).length ≤ 2
    ∧ extract_keywords "cache cache lock lock cache" 2 = ["cache", "lock"]
    ∧ extract_keywords "the of and" 5 = [] := by
  refine ⟨(C2_extract_keywords_contract "deep deep nets" 2).1,
    (C2_extract_keywords_contract "cache cache lock lock cache" 2).2.2.2.2.2,
    (C2_extract_keywords_contract "the of and" 5).2.2.2.2.1 (by decide)⟩

end ArxivPipeline
